import Mathlib

/-
  Verification development for the MultiCore interval branch-and-bound
  minimizer (src/optimization-mpi.cpp).

  Shallow embedding conventions:
  * C++ `double` values are modelled as rationals (`ℚ`); the running upper
    bound `min_ub`, initialized to `numeric_limits<double>::infinity()`, is
    modelled by the two-constructor type `Ubound` (`inf` = +infinity,
    `fin q` = the finite value `q`), ordered the way IEEE comparisons on
    `[+infinity] ∪ ℚ` behave.
  * The external `interval` class (only its interface is used by the code:
    `left()`, `right()`, `mid()`, `width()` and the two-endpoint
    constructor) is modelled as a pair of rationals.
  * The external `minimizer_list` is a `std::multiset<minimizer>`.
    Modelled from the spec: the Candidate Set is "an ordered collection of
    Candidates, ordered primarily by `flo` (ascending)"; its comparison
    operator is not part of src/.  It is embedded as a `List` kept in
    ascending-`flo` order; `multiset::insert` becomes an ordered insertion
    placing duplicates after equal keys, and `erase(lower_bound(key), end())`
    becomes removal of the suffix that starts at the first entry whose
    `flo` is not below the key.
  * `minimize` mutates `min_ub` and `ml` through references; the embedding
    threads an explicit state (the pair of both) and returns the final
    state.  Since the recursion does not structurally decrease, the
    embedding takes an explicit fuel argument and returns `none` when the
    fuel is exhausted (the termination claim exhibits sufficient fuel).
    As ghost instrumentation for the temporal claims, the embedding also
    returns the chronological list of states observed right after each
    mutation of the Candidate Set / upper bound; this trace has no
    influence on the computed state.
-/

/-- The value domain of `min_ub`: either +infinity (its initial value,
`numeric_limits<double>::infinity()`) or a finite value. -/
inductive Ubound where
  | inf : Ubound
  | fin : ℚ → Ubound
deriving DecidableEq, Repr

/-- Strict order on `Ubound`: every finite value is below `inf`. -/
def Ubound.lt : Ubound → Ubound → Prop
  | .inf, _ => False
  | .fin _, .inf => True
  | .fin a, .fin b => a < b

/-- Reflexive order on `Ubound`: every value is at most `inf`. -/
def Ubound.le : Ubound → Ubound → Prop
  | _, .inf => True
  | .inf, .fin _ => False
  | .fin a, .fin b => a ≤ b

instance : LT Ubound := ⟨Ubound.lt⟩

instance : LE Ubound := ⟨Ubound.le⟩

instance Ubound.decidableLT : DecidableRel (fun a b : Ubound => a < b) := fun a b =>
  match a, b with
  | .inf, _ => Decidable.isFalse (fun h => h)
  | .fin _, .inf => Decidable.isTrue trivial
  | .fin a, .fin b => decidable_of_iff (a < b) Iff.rfl

instance Ubound.decidableLE : DecidableRel (fun a b : Ubound => a ≤ b) := fun a b =>
  match a, b with
  | .inf, .inf => Decidable.isTrue trivial
  | .fin _, .inf => Decidable.isTrue trivial
  | .inf, .fin _ => Decidable.isFalse (fun h => h)
  | .fin a, .fin b => decidable_of_iff (a ≤ b) Iff.rfl

/-- Reduction operator `MPI_MIN` on two `min_ub` values. -/
def Ubound.minB : Ubound → Ubound → Ubound
  | .inf, b => b
  | .fin a, .inf => .fin a
  | .fin a, .fin b => .fin (min a b)

/-- The external interval type: a pair of endpoints, mirroring the
`interval(lo, hi)` constructor used by `split_box`. -/
structure interval where
  lo : ℚ
  hi : ℚ
deriving DecidableEq, Repr

/-- Accessor `interval::left()`. -/
def interval.left (x : interval) : ℚ := x.lo

/-- Accessor `interval::right()`. -/
def interval.right (x : interval) : ℚ := x.hi

/-- Accessor `interval::mid()`: the midpoint of the interval. -/
def interval.mid (x : interval) : ℚ := (x.lo + x.hi) / 2

/-- Accessor `interval::width()`. -/
def interval.width (x : interval) : ℚ := x.hi - x.lo

/-- Function `split_box` (src/optimization-mpi.cpp:8-17): split a 2D box into four
subboxes by splitting each dimension into two equal subparts.  The C++
function returns `(xl, xr, yl, yr)` through its four output parameters. -/
def split_box (x y : interval) : interval × interval × interval × interval :=
  (⟨x.left, x.mid⟩, ⟨x.mid, x.right⟩, ⟨y.left, y.mid⟩, ⟨y.mid, y.right⟩)

/-- A candidate minimizer record (the external `minimizer` struct): the box
together with the enclosure `[flo, fhi]` of the objective over it, as built
at src/optimization-mpi.cpp:47. -/
structure minimizer where
  x : interval
  y : interval
  flo : ℚ
  fhi : ℚ
deriving DecidableEq, Repr

/-- The mutable state of one engine run: the current upper bound `min_ub`
and the candidate list `ml` in ascending-`flo` order. -/
abbrev EState : Type := Ubound × List minimizer

/-- Operation `multiset<minimizer>::insert` on the ascending-`flo` ordered list:
the new record is placed after all entries whose `flo` is not above its
own (the position `multiset::insert` uses for duplicate keys). -/
def insertCand (c : minimizer) : List minimizer → List minimizer
  | [] => [c]
  | m :: rest => if c.flo < m.flo then c :: m :: rest else m :: insertCand c rest

/-- Operation `ml.erase(ml.lower_bound(minimizer\x7b0,0,b,0\x7d), ml.end())`
(src/optimization-mpi.cpp:38-39) on the ascending-`flo` ordered list:
keep the prefix of entries with `flo < b`; the erased part is the
contiguous suffix starting at the first entry with `flo ≥ b`. -/
def evictFrom (b : ℚ) (ml : List minimizer) : List minimizer :=
  ml.takeWhile (fun m => decide (m.flo < b))

/-- The tighten block of `minimize` (src/optimization-mpi.cpp:34-40): if the
enclosure's right endpoint is below the current upper bound, lower the bound
to it and discard all saved candidates whose `flo` is at or above the new
bound; otherwise leave the state unchanged. -/
def tightenStep (fxy : interval) (s : EState) : EState :=
  if Ubound.fin fxy.right < s.1 then (Ubound.fin fxy.right, evictFrom fxy.right s.2)
  else s

/-- The sequential branch-and-bound engine: `minimize` with `use_mpi = false`
(src/optimization-mpi.cpp:20-49 and 75-80).  Steps, in source order: prune
(line 30), tighten (lines 34-40), stop-and-record at threshold width
(lines 45-49), otherwise split and recurse into the four subboxes in the
order of lines 76-79, threading the state through.  `fuel` bounds the
recursion depth (`none` = fuel exhausted); the second component of the
result is the ghost trace of states after each mutation. -/
def minimize (f : interval → interval → interval) (t : ℚ) :
    ℕ → interval → interval → EState → Option (EState × List EState)
  | 0, _, _, _ => none
  | fuel + 1, x, y, s =>
    let fxy := f x y
    if Ubound.fin fxy.left > s.1 then some (s, [])
    else
      let s1 := tightenStep fxy s
      let tr1 := if Ubound.fin fxy.right < s.1 then [s1] else []
      if x.width ≤ t then
        some ((s1.1, insertCand ⟨x, y, fxy.left, fxy.right⟩ s1.2),
          tr1 ++ [(s1.1, insertCand ⟨x, y, fxy.left, fxy.right⟩ s1.2)])
      else
        match split_box x y with
        | (xl, xr, yl, yr) =>
          (minimize f t fuel xl yl s1).bind fun rA =>
          (minimize f t fuel xl yr rA.1).bind fun rB =>
          (minimize f t fuel xr yl rB.1).bind fun rC =>
          (minimize f t fuel xr yr rC.1).map fun rD =>
          (rD.1, tr1 ++ (rA.2 ++ (rB.2 ++ (rC.2 ++ rD.2))))

/-- Variant of `minimize` with `use_mpi = true`, as executed by the rank-`r` process
(src/optimization-mpi.cpp:56-74): after the shared prune / tighten / stop
steps, the box is split and the process explores at most the one subbox
selected by its own rank (lines 63-70), sequentially (`use_mpi = false`),
starting from a local copy of the bound and an alias of the list (lines
61-62).  The `MPI_Reduce(..., MPI_MIN, ...)` of line 72 stores into the
root's `min_ub` the minimum of the participating processes' local bounds;
the process's own contribution is its `local_min_ub`, so the locally
visible outcome is the local state itself. -/
def minimize_mpi (f : interval → interval → interval) (t : ℚ) (fuel : ℕ) (r : ℕ)
    (x y : interval) (s : EState) : Option EState :=
  let fxy := f x y
  if Ubound.fin fxy.left > s.1 then some s
  else
    let s1 := tightenStep fxy s
    if x.width ≤ t then
      some (s1.1, insertCand ⟨x, y, fxy.left, fxy.right⟩ s1.2)
    else
      match split_box x y with
      | (xl, xr, yl, yr) =>
        if r = 0 then (minimize f t fuel xl yl s1).map Prod.fst
        else if r = 1 then (minimize f t fuel xl yr s1).map Prod.fst
        else if r = 2 then (minimize f t fuel xr yl s1).map Prod.fst
        else if r = 3 then (minimize f t fuel xr yr s1).map Prod.fst
        else some s1

/-- The quadrant array built by rank 0 in `main`
(src/optimization-mpi.cpp:144-150): `carre[0] = (xl,yl)`,
`carre[1] = (xl,yr)`, `carre[2] = (xr,yl)`, `carre[3] = (xr,yr)`. -/
def carre (x y : interval) (r : ℕ) : interval × interval :=
  match split_box x y with
  | (xl, xr, yl, yr) =>
    if r = 0 then (xl, yl)
    else if r = 1 then (xl, yr)
    else if r = 2 then (xr, yl)
    else (xr, yr)

/-- The state each rank holds when it reaches the output statements of
`main`.  Rank 0 (src/optimization-mpi.cpp:118-168) calls
`minimize(fun.f, p[0].first, p[0].second, precision, min_ub, minimums, true)`
on its own quadrant starting from `min_ub` = +infinity and an empty list
(`p` names the quadrant array declared as `carre`).  Ranks 1-3
(lines 170-178) receive data from rank 0 but never call `minimize` (the
comment block at lines 174-176 stands where the call would be); their
`min_ub` and `minimums` keep the initial values of lines 101-105. -/
def workerReported (f : interval → interval → interval) (t : ℚ) (fuel : ℕ)
    (x0 y0 : interval) (r : ℕ) : Option EState :=
  if r = 0 then
    minimize_mpi f t fuel 0 (carre x0 y0 0).1 (carre x0 y0 0).2 (Ubound.inf, [])
  else some (Ubound.inf, [])

/-- The minimum-reduction of the four workers' local upper bounds
(the combination step, `MPI_Reduce(..., MPI_MIN, ...)` of
src/optimization-mpi.cpp:72, applied to the values each rank's local
bound variable holds at the end of its run). -/
def reducedBound (f : interval → interval → interval) (t : ℚ) (fuel : ℕ)
    (x0 y0 : interval) : Option Ubound :=
  (workerReported f t fuel x0 y0 0).bind fun s0 =>
  (workerReported f t fuel x0 y0 1).bind fun s1 =>
  (workerReported f t fuel x0 y0 2).bind fun s2 =>
  (workerReported f t fuel x0 y0 3).map fun s3 =>
  Ubound.minB s0.1 (Ubound.minB s1.1 (Ubound.minB s2.1 s3.1))

/-- For a positive threshold the required recursion depth exists:
some `n` has `w ≤ t * 2 ^ n`. -/
lemma minFuel_exists (w t : ℚ) (h : 0 < t) : ∃ n : ℕ, w ≤ t * 2 ^ n := by
  obtain ⟨n, hn⟩ := pow_unbounded_of_one_lt (w / t) (by norm_num : (1 : ℚ) < 2)
  refine ⟨n, ?_⟩
  rw [div_lt_iff₀ h] at hn
  nlinarith

/-- The least recursion depth sufficient for the engine: the least `n` with
`initial width ≤ threshold * 2 ^ n` (for `threshold < width` this is
exactly `⌈log₂ (width / threshold)⌉`); junk value `0` for nonpositive
thresholds. -/
def minFuel (w t : ℚ) : ℕ :=
  if h : 0 < t then Nat.find (minFuel_exists w t h) else 0

/-- Every candidate currently stored has `flo` at most the current
upper bound (the non-strict form of the Candidate Set invariant). -/
def invLe (s : EState) : Prop := ∀ c ∈ s.2, Ubound.fin c.flo ≤ s.1

/-- The point set of a box (over rational coordinates). -/
def boxSet (x y : interval) : Set (ℚ × ℚ) :=
  {p | x.lo ≤ p.1 ∧ p.1 ≤ x.hi ∧ y.lo ≤ p.2 ∧ p.2 ≤ y.hi}

/-- The interior point set of a box (over rational coordinates). -/
def boxInterior (x y : interval) : Set (ℚ × ℚ) :=
  {p | x.lo < p.1 ∧ p.1 < x.hi ∧ y.lo < p.2 ∧ p.2 < y.hi}

/-- Concrete objective: the constant enclosure `[0, 0]`. -/
def fZero : interval → interval → interval := fun _ _ => ⟨0, 0⟩

/-- Concrete objective: the constant enclosure `[1, 2]`. -/
def fConst12 : interval → interval → interval := fun _ _ => ⟨1, 2⟩

/-- Concrete objective: the constant enclosure `[5, 5]`. -/
def fConst55 : interval → interval → interval := fun _ _ => ⟨5, 5⟩

/-- Concrete objective: the constant enclosure `[7, 8]`. -/
def fConst78 : interval → interval → interval := fun _ _ => ⟨7, 8⟩

/-- Concrete objective: the constant enclosure `[10, 11]`. -/
def fConst1011 : interval → interval → interval := fun _ _ => ⟨10, 11⟩

/-- Concrete objective: the exact interval extension of `-(x + y)`,
whose minimum over a box sits at the box's top-right corner. -/
def fNegSum : interval → interval → interval :=
  fun x y => ⟨-(x.right + y.right), -(x.left + y.left)⟩

/-- The unit box side `[0,1]`. -/
def iv01 : interval := ⟨0, 1⟩

/-- The interval `[0,4]`. -/
def iv04 : interval := ⟨0, 4⟩

@[simp] lemma Ubound.not_inf_lt (u : Ubound) : ¬ (Ubound.inf < u) := fun h => h

@[simp] lemma Ubound.fin_lt_inf (a : ℚ) : Ubound.fin a < Ubound.inf := trivial

@[simp] lemma Ubound.fin_lt_fin (a b : ℚ) : Ubound.fin a < Ubound.fin b ↔ a < b := Iff.rfl

@[simp] lemma Ubound.le_inf (u : Ubound) : u ≤ Ubound.inf := by cases u <;> exact trivial

@[simp] lemma Ubound.not_inf_le_fin (a : ℚ) : ¬ (Ubound.inf ≤ Ubound.fin a) := fun h => h

@[simp] lemma Ubound.fin_le_fin (a b : ℚ) : Ubound.fin a ≤ Ubound.fin b ↔ a ≤ b := Iff.rfl

lemma Ubound.le_refl (u : Ubound) : u ≤ u := by cases u <;> simp

lemma Ubound.lt_imp_le {u v : Ubound} (h : u < v) : u ≤ v := by
  cases u <;> cases v <;> simp_all
  exact le_of_lt h

lemma Ubound.le_trans {u v w : Ubound} (h1 : u ≤ v) (h2 : v ≤ w) : u ≤ w := by
  cases u <;> cases v <;> cases w <;> simp_all
  exact h1.trans h2

lemma Ubound.not_lt_imp_le {u v : Ubound} (h : ¬ (v < u)) : u ≤ v := by
  cases u <;> cases v <;> simp_all

lemma mem_insertCand {a c : minimizer} {l : List minimizer} :
    a ∈ insertCand c l ↔ a = c ∨ a ∈ l := by
  induction l with
  | nil => simp [insertCand]
  | cons m rest ih =>
    by_cases h : c.flo < m.flo
    · simp only [insertCand, if_pos h, List.mem_cons]
    · simp only [insertCand, if_neg h, List.mem_cons, ih]
      tauto

lemma mem_evictFrom {a : minimizer} {b : ℚ} {l : List minimizer}
    (h : a ∈ evictFrom b l) : a ∈ l ∧ a.flo < b := by
  induction l with
  | nil => simp [evictFrom] at h
  | cons m rest ih =>
    rw [evictFrom, List.takeWhile_cons] at h
    by_cases hm : m.flo < b
    · have hd : decide (m.flo < b) = true := by simpa using hm
      rw [if_pos hd] at h
      rcases List.mem_cons.mp h with rfl | h
      · exact ⟨List.mem_cons_self _ _, hm⟩
      · obtain ⟨h1, h2⟩ := ih (by simpa [evictFrom] using h)
        exact ⟨List.mem_cons_of_mem _ h1, h2⟩
    · simp [hm] at h

lemma evictFrom_eq_filter {b : ℚ} {l : List minimizer}
    (hs : l.Pairwise (fun p q => p.flo ≤ q.flo)) :
    evictFrom b l = l.filter (fun m => decide (m.flo < b)) := by
  induction l with
  | nil => rfl
  | cons m rest ih =>
    rw [List.pairwise_cons] at hs
    rw [evictFrom, List.takeWhile_cons, List.filter_cons]
    by_cases hm : m.flo < b
    · have hd : decide (m.flo < b) = true := by simpa using hm
      rw [if_pos hd, if_pos hd]
      rw [show List.takeWhile (fun m => decide (m.flo < b)) rest = evictFrom b rest from rfl,
        ih hs.2]
    · have hd : ¬ (decide (m.flo < b) = true) := by simpa using hm
      rw [if_neg hd, if_neg hd]
      symm
      rw [List.filter_eq_nil_iff]
      intro a ha
      have : m.flo ≤ a.flo := hs.1 a ha
      simp only [decide_eq_true_eq]
      intro hab
      exact hm (lt_of_le_of_lt this hab)

lemma dropWhile_ge {b : ℚ} {l : List minimizer}
    (hs : l.Pairwise (fun p q => p.flo ≤ q.flo)) :
    ∀ m ∈ l.dropWhile (fun m => decide (m.flo < b)), b ≤ m.flo := by
  induction l with
  | nil => intro m hm; simp at hm
  | cons a rest ih =>
    rw [List.pairwise_cons] at hs
    intro m hm
    rw [List.dropWhile_cons] at hm
    by_cases ha : a.flo < b
    · have hd : decide (a.flo < b) = true := by simpa using ha
      rw [if_pos hd] at hm
      exact ih hs.2 m hm
    · have hd : ¬ (decide (a.flo < b) = true) := by simpa using ha
      rw [if_neg hd] at hm
      rcases List.mem_cons.mp hm with rfl | hm
      · exact le_of_not_lt ha
      · exact le_trans (le_of_not_lt ha) (hs.1 m hm)

lemma getLastD_append {α : Type} (l m : List α) (a : α) :
    (l ++ m).getLastD a = m.getLastD (l.getLastD a) := by
  induction l generalizing a with
  | nil => rfl
  | cons x xs ih => simp only [List.cons_append, List.getLastD_cons, ih]

lemma chain_glue {α : Type} {R : α → α → Prop} :
    ∀ {a : α} {l m : List α},
      List.Chain' R (a :: l) → List.Chain' R (l.getLastD a :: m) →
      List.Chain' R (a :: l ++ m) := by
  intro a l
  induction l generalizing a with
  | nil => intro m _ h2; simpa using h2
  | cons x xs ih =>
    intro m h1 h2
    rw [List.getLastD_cons] at h2
    rcases List.chain'_cons.mp h1 with ⟨hax, h1'⟩
    exact List.chain'_cons.mpr ⟨hax, ih h1' h2⟩

lemma tightenStep_fst_le (fxy : interval) (s : EState) : (tightenStep fxy s).1 ≤ s.1 := by
  rw [tightenStep]
  by_cases h : Ubound.fin fxy.right < s.1
  · rw [if_pos h]
    exact Ubound.lt_imp_le h
  · rw [if_neg h]
    exact Ubound.le_refl _

lemma minimize_mono (f : interval → interval → interval) (t : ℚ) :
    ∀ fuel x y s res, minimize f t fuel x y s = some res →
      List.Chain' (fun a b : EState => b.1 ≤ a.1) (s :: res.2) ∧ res.1 = res.2.getLastD s := by
  intro fuel
  induction fuel with
  | zero => intro x y s res h; simp [minimize] at h
  | succ n ih =>
    intro x y s res h
    simp only [minimize] at h
    by_cases Hp : Ubound.fin (f x y).left > s.1
    · rw [if_pos Hp] at h
      obtain rfl : (s, ([] : List EState)) = res := Option.some.inj h
      exact ⟨List.chain'_singleton s, rfl⟩
    · rw [if_neg Hp] at h
      by_cases Hw : x.width ≤ t
      · rw [if_pos Hw] at h
        obtain rfl := (Option.some.inj h).symm
        constructor
        · by_cases Ht : Ubound.fin (f x y).right < s.1
          · rw [if_pos Ht]
            refine List.chain'_cons.mpr ⟨?_, List.chain'_pair.mpr (Ubound.le_refl _)⟩
            rw [tightenStep, if_pos Ht]
            exact Ubound.lt_imp_le Ht
          · rw [if_neg Ht]
            refine List.chain'_pair.mpr ?_
            rw [tightenStep, if_neg Ht]
            exact Ubound.le_refl _
        · rw [getLastD_append]
          rfl
      · rw [if_neg Hw] at h
        simp only [split_box] at h
        rcases hA : minimize f t n ⟨x.left, x.mid⟩ ⟨y.left, y.mid⟩ (tightenStep (f x y) s) with _ | rA
        · rw [hA] at h; simp at h
        rw [hA] at h
        simp only [Option.some_bind] at h
        rcases hB : minimize f t n ⟨x.left, x.mid⟩ ⟨y.mid, y.right⟩ rA.1 with _ | rB
        · rw [hB] at h; simp at h
        rw [hB] at h
        simp only [Option.some_bind] at h
        rcases hC : minimize f t n ⟨x.mid, x.right⟩ ⟨y.left, y.mid⟩ rB.1 with _ | rC
        · rw [hC] at h; simp at h
        rw [hC] at h
        simp only [Option.some_bind] at h
        rcases hD : minimize f t n ⟨x.mid, x.right⟩ ⟨y.mid, y.right⟩ rC.1 with _ | rD
        · rw [hD] at h; simp at h
        rw [hD] at h
        simp only [Option.map_some'] at h
        obtain ⟨cA, lA⟩ := ih _ _ _ _ hA
        obtain ⟨cB, lB⟩ := ih _ _ _ _ hB
        obtain ⟨cC, lC⟩ := ih _ _ _ _ hC
        obtain ⟨cD, lD⟩ := ih _ _ _ _ hD
        have base : List.Chain' (fun a b : EState => b.1 ≤ a.1)
            (s :: (if Ubound.fin (f x y).right < s.1 then [tightenStep (f x y) s] else [])) ∧
            ((if Ubound.fin (f x y).right < s.1 then [tightenStep (f x y) s] else []) : List EState).getLastD s
              = tightenStep (f x y) s := by
          by_cases Ht : Ubound.fin (f x y).right < s.1
          · rw [if_pos Ht]
            refine ⟨List.chain'_pair.mpr ?_, rfl⟩
            rw [tightenStep, if_pos Ht]
            exact Ubound.lt_imp_le Ht
          · rw [if_neg Ht]
            refine ⟨List.chain'_singleton s, ?_⟩
            rw [tightenStep, if_neg Ht]
            rfl
        set tr1 : List EState :=
          (if Ubound.fin (f x y).right < s.1 then [tightenStep (f x y) s] else []) with htr1
        have g1 : List.Chain' (fun a b : EState => b.1 ≤ a.1) (s :: (tr1 ++ rA.2)) :=
          chain_glue base.1 (by rw [base.2]; exact cA)
        have eA : (tr1 ++ rA.2).getLastD s = rA.1 := by rw [getLastD_append, base.2, ← lA]
        have g2 : List.Chain' (fun a b : EState => b.1 ≤ a.1) (s :: ((tr1 ++ rA.2) ++ rB.2)) :=
          chain_glue g1 (by rw [eA]; exact cB)
        have eB : ((tr1 ++ rA.2) ++ rB.2).getLastD s = rB.1 := by rw [getLastD_append, eA, ← lB]
        have g3 : List.Chain' (fun a b : EState => b.1 ≤ a.1)
            (s :: (((tr1 ++ rA.2) ++ rB.2) ++ rC.2)) :=
          chain_glue g2 (by rw [eB]; exact cC)
        have eC : (((tr1 ++ rA.2) ++ rB.2) ++ rC.2).getLastD s = rC.1 := by
          rw [getLastD_append, eB, ← lC]
        have g4 : List.Chain' (fun a b : EState => b.1 ≤ a.1)
            (s :: ((((tr1 ++ rA.2) ++ rB.2) ++ rC.2) ++ rD.2)) :=
          chain_glue g3 (by rw [eC]; exact cD)
        have eD : ((((tr1 ++ rA.2) ++ rB.2) ++ rC.2) ++ rD.2).getLastD s = rD.1 := by
          rw [getLastD_append, eC, ← lD]
        have hassoc : tr1 ++ (rA.2 ++ (rB.2 ++ (rC.2 ++ rD.2)))
            = (((tr1 ++ rA.2) ++ rB.2) ++ rC.2) ++ rD.2 := by
          simp [List.append_assoc]
        obtain rfl := (Option.some.inj h).symm
        refine ⟨?_, ?_⟩
        · show List.Chain' (fun a b : EState => b.1 ≤ a.1)
            (s :: (tr1 ++ (rA.2 ++ (rB.2 ++ (rC.2 ++ rD.2)))))
          rw [hassoc]
          exact g4
        · show rD.1 = (tr1 ++ (rA.2 ++ (rB.2 ++ (rC.2 ++ rD.2)))).getLastD s
          rw [hassoc, eD]

lemma tightenStep_invLe {fxy : interval} {s : EState} (h : invLe s) :
    invLe (tightenStep fxy s) := by
  rw [tightenStep]
  by_cases Ht : Ubound.fin fxy.right < s.1
  · rw [if_pos Ht]
    intro c hc
    obtain ⟨_, hlt⟩ := mem_evictFrom hc
    exact (Ubound.fin_le_fin _ _).mpr (le_of_lt hlt)
  · rw [if_neg Ht]
    exact h

lemma leafState_invLe {f : interval → interval → interval}
    (Hv : ∀ a b : interval, (f a b).left ≤ (f a b).right) {x y : interval} {s : EState}
    (Hp : ¬ (Ubound.fin (f x y).left > s.1)) (h : invLe s) :
    invLe ((tightenStep (f x y) s).1,
      insertCand ⟨x, y, (f x y).left, (f x y).right⟩ (tightenStep (f x y) s).2) := by
  intro c hc
  rcases mem_insertCand.mp hc with rfl | hc
  · show Ubound.fin (f x y).left ≤ (tightenStep (f x y) s).1
    rw [tightenStep]
    by_cases Ht : Ubound.fin (f x y).right < s.1
    · rw [if_pos Ht]
      exact (Ubound.fin_le_fin _ _).mpr (Hv x y)
    · rw [if_neg Ht]
      exact Ubound.not_lt_imp_le Hp
  · exact tightenStep_invLe h c hc

lemma minimize_invLe (f : interval → interval → interval)
    (Hv : ∀ a b : interval, (f a b).left ≤ (f a b).right) (t : ℚ) :
    ∀ fuel x y s res, minimize f t fuel x y s = some res → invLe s →
      invLe res.1 ∧ ∀ u ∈ res.2, invLe u := by
  intro fuel
  induction fuel with
  | zero => intro x y s res h _; simp [minimize] at h
  | succ n ih =>
    intro x y s res h hs
    simp only [minimize] at h
    by_cases Hp : Ubound.fin (f x y).left > s.1
    · rw [if_pos Hp] at h
      obtain rfl : (s, ([] : List EState)) = res := Option.some.inj h
      exact ⟨hs, by simp⟩
    · rw [if_neg Hp] at h
      by_cases Hw : x.width ≤ t
      · rw [if_pos Hw] at h
        obtain rfl := (Option.some.inj h).symm
        have hleaf := leafState_invLe Hv Hp hs
        refine ⟨hleaf, ?_⟩
        intro u hu
        by_cases Ht : Ubound.fin (f x y).right < s.1
        · rw [if_pos Ht] at hu
          simp only [List.cons_append, List.nil_append, List.mem_cons,
            List.not_mem_nil, or_false] at hu
          rcases hu with rfl | rfl
          · exact tightenStep_invLe hs
          · exact hleaf
        · rw [if_neg Ht] at hu
          simp only [List.nil_append, List.mem_singleton] at hu
          subst hu
          exact hleaf
      · rw [if_neg Hw] at h
        simp only [split_box] at h
        rcases hA : minimize f t n ⟨x.left, x.mid⟩ ⟨y.left, y.mid⟩ (tightenStep (f x y) s) with _ | rA
        · rw [hA] at h; simp at h
        rw [hA] at h
        simp only [Option.some_bind] at h
        rcases hB : minimize f t n ⟨x.left, x.mid⟩ ⟨y.mid, y.right⟩ rA.1 with _ | rB
        · rw [hB] at h; simp at h
        rw [hB] at h
        simp only [Option.some_bind] at h
        rcases hC : minimize f t n ⟨x.mid, x.right⟩ ⟨y.left, y.mid⟩ rB.1 with _ | rC
        · rw [hC] at h; simp at h
        rw [hC] at h
        simp only [Option.some_bind] at h
        rcases hD : minimize f t n ⟨x.mid, x.right⟩ ⟨y.mid, y.right⟩ rC.1 with _ | rD
        · rw [hD] at h; simp at h
        rw [hD] at h
        simp only [Option.map_some'] at h
        have h1 : invLe (tightenStep (f x y) s) := tightenStep_invLe hs
        obtain ⟨iA, tA⟩ := ih _ _ _ _ hA h1
        obtain ⟨iB, tB⟩ := ih _ _ _ _ hB iA
        obtain ⟨iC, tC⟩ := ih _ _ _ _ hC iB
        obtain ⟨iD, tD⟩ := ih _ _ _ _ hD iC
        obtain rfl := (Option.some.inj h).symm
        refine ⟨iD, ?_⟩
        intro u hu
        rcases List.mem_append.mp hu with hu | hu
        · by_cases Ht : Ubound.fin (f x y).right < s.1
          · rw [if_pos Ht] at hu
            simp only [List.mem_singleton] at hu
            subst hu
            exact h1
          · rw [if_neg Ht] at hu
            simp at hu
        · rcases List.mem_append.mp hu with hu | hu
          · exact tA u hu
          · rcases List.mem_append.mp hu with hu | hu
            · exact tB u hu
            · rcases List.mem_append.mp hu with hu | hu
              · exact tC u hu
              · exact tD u hu

lemma half_width_le {x : interval} {t : ℚ} {m : ℕ} (hw : x.width ≤ t * 2 ^ (m + 1)) :
    (⟨x.left, x.mid⟩ : interval).width ≤ t * 2 ^ m ∧
    (⟨x.mid, x.right⟩ : interval).width ≤ t * 2 ^ m := by
  rw [pow_succ] at hw
  simp only [interval.width, interval.left, interval.right, interval.mid] at hw ⊢
  constructor <;> linarith [hw]

lemma minimize_succ_eq (f : interval → interval → interval) (t : ℚ) (fuel : ℕ)
    (x y : interval) (s : EState) :
    minimize f t (fuel + 1) x y s =
      (let fxy := f x y
       if Ubound.fin fxy.left > s.1 then some (s, [])
       else
         let s1 := tightenStep fxy s
         let tr1 := if Ubound.fin fxy.right < s.1 then [s1] else []
         if x.width ≤ t then
           some ((s1.1, insertCand ⟨x, y, fxy.left, fxy.right⟩ s1.2),
             tr1 ++ [(s1.1, insertCand ⟨x, y, fxy.left, fxy.right⟩ s1.2)])
         else
           match split_box x y with
           | (xl, xr, yl, yr) =>
             (minimize f t fuel xl yl s1).bind fun rA =>
             (minimize f t fuel xl yr rA.1).bind fun rB =>
             (minimize f t fuel xr yl rB.1).bind fun rC =>
             (minimize f t fuel xr yr rC.1).map fun rD =>
             (rD.1, tr1 ++ (rA.2 ++ (rB.2 ++ (rC.2 ++ rD.2))))) := rfl

lemma minimize_total (f : interval → interval → interval) (t : ℚ) :
    ∀ n x y s, x.width ≤ t * 2 ^ n → (minimize f t (n + 1) x y s).isSome := by
  intro n
  induction n with
  | zero =>
    intro x y s hw
    rw [pow_zero, mul_one] at hw
    simp only [minimize]
    by_cases Hp : Ubound.fin (f x y).left > s.1
    · rw [if_pos Hp]; rfl
    · rw [if_neg Hp, if_pos hw]; rfl
  | succ m ih =>
    intro x y s hw
    rw [minimize_succ_eq]
    simp only [split_box]
    by_cases Hp : Ubound.fin (f x y).left > s.1
    · rw [if_pos Hp]; rfl
    · rw [if_neg Hp]
      by_cases Hw : x.width ≤ t
      · rw [if_pos Hw]; rfl
      · rw [if_neg Hw]
        obtain ⟨hxl, hxr⟩ := half_width_le hw
        obtain ⟨rA, hA⟩ := Option.isSome_iff_exists.mp
          (ih ⟨x.left, x.mid⟩ ⟨y.left, y.mid⟩ (tightenStep (f x y) s) hxl)
        rw [hA]
        simp only [Option.some_bind]
        obtain ⟨rB, hB⟩ := Option.isSome_iff_exists.mp (ih ⟨x.left, x.mid⟩ ⟨y.mid, y.right⟩ rA.1 hxl)
        rw [hB]
        simp only [Option.some_bind]
        obtain ⟨rC, hC⟩ := Option.isSome_iff_exists.mp (ih ⟨x.mid, x.right⟩ ⟨y.left, y.mid⟩ rB.1 hxr)
        rw [hC]
        simp only [Option.some_bind]
        obtain ⟨rD, hD⟩ := Option.isSome_iff_exists.mp (ih ⟨x.mid, x.right⟩ ⟨y.mid, y.right⟩ rC.1 hxr)
        rw [hD]
        rfl

lemma boxSet_split (x y : interval) (hx : x.lo ≤ x.hi) (hy : y.lo ≤ y.hi) :
    boxSet x y =
      boxSet ⟨x.left, x.mid⟩ ⟨y.left, y.mid⟩ ∪ boxSet ⟨x.left, x.mid⟩ ⟨y.mid, y.right⟩ ∪
      boxSet ⟨x.mid, x.right⟩ ⟨y.left, y.mid⟩ ∪ boxSet ⟨x.mid, x.right⟩ ⟨y.mid, y.right⟩ := by
  have hxm1 : x.lo ≤ x.mid := by simp [interval.mid]; linarith
  have hxm2 : x.mid ≤ x.hi := by simp [interval.mid]; linarith
  have hym1 : y.lo ≤ y.mid := by simp [interval.mid]; linarith
  have hym2 : y.mid ≤ y.hi := by simp [interval.mid]; linarith
  ext p
  simp only [boxSet, interval.left, interval.right, Set.mem_union, Set.mem_setOf_eq]
  constructor
  · rintro ⟨h1, h2, h3, h4⟩
    rcases le_total p.1 x.mid with hpx | hpx <;> rcases le_total p.2 y.mid with hpy | hpy
    · exact Or.inl (Or.inl (Or.inl ⟨h1, hpx, h3, hpy⟩))
    · exact Or.inl (Or.inl (Or.inr ⟨h1, hpx, hpy, h4⟩))
    · exact Or.inl (Or.inr ⟨hpx, h2, h3, hpy⟩)
    · exact Or.inr ⟨hpx, h2, hpy, h4⟩
  · rintro (((⟨h1, h2, h3, h4⟩ | ⟨h1, h2, h3, h4⟩) | ⟨h1, h2, h3, h4⟩) | ⟨h1, h2, h3, h4⟩) <;>
      exact ⟨by linarith, by linarith, by linarith, by linarith⟩

lemma boxInterior_split_disjoint (x y : interval) :
    List.Pairwise (fun b1 b2 : interval × interval =>
        boxInterior b1.1 b1.2 ∩ boxInterior b2.1 b2.2 = ∅)
      [(⟨x.left, x.mid⟩, ⟨y.left, y.mid⟩), (⟨x.left, x.mid⟩, ⟨y.mid, y.right⟩),
       (⟨x.mid, x.right⟩, ⟨y.left, y.mid⟩), (⟨x.mid, x.right⟩, ⟨y.mid, y.right⟩)] := by
  simp only [List.pairwise_cons, List.mem_cons, List.not_mem_nil, or_false,
    List.Pairwise.nil, and_true]
  refine ⟨?_, ?_, ?_, fun a h => h.elim⟩
  · rintro b (rfl | rfl | rfl) <;>
    · ext p
      simp only [boxInterior, Set.mem_inter_iff, Set.mem_setOf_eq, Set.mem_empty_iff_false,
        iff_false, interval.left, interval.right, interval.mid]
      rintro ⟨⟨h1, h2, h3, h4⟩, h5, h6, h7, h8⟩
      linarith
  · rintro b (rfl | rfl) <;>
    · ext p
      simp only [boxInterior, Set.mem_inter_iff, Set.mem_setOf_eq, Set.mem_empty_iff_false,
        iff_false, interval.left, interval.right, interval.mid]
      rintro ⟨⟨h1, h2, h3, h4⟩, h5, h6, h7, h8⟩
      linarith
  · rintro b rfl
    ext p
    simp only [boxInterior, Set.mem_inter_iff, Set.mem_setOf_eq, Set.mem_empty_iff_false,
      iff_false, interval.left, interval.right, interval.mid]
    rintro ⟨⟨h1, h2, h3, h4⟩, h5, h6, h7, h8⟩
    linarith

lemma minimize_leaf (f : interval → interval → interval) (t : ℚ) (n : ℕ)
    (x y : interval) (s : EState)
    (Hp : ¬ (Ubound.fin (f x y).left > s.1)) (Hw : x.width ≤ t) :
    minimize f t (n + 1) x y s =
      some (((tightenStep (f x y) s).1,
          insertCand ⟨x, y, (f x y).left, (f x y).right⟩ (tightenStep (f x y) s).2),
        (if Ubound.fin (f x y).right < s.1 then [tightenStep (f x y) s] else []) ++
          [((tightenStep (f x y) s).1,
            insertCand ⟨x, y, (f x y).left, (f x y).right⟩ (tightenStep (f x y) s).2)]) := by
  simp only [minimize]
  rw [if_neg Hp, if_pos Hw]

lemma minimize_trace_head (f : interval → interval → interval) (t : ℚ) (n : ℕ)
    (x y : interval) (s : EState) (res : EState × List EState)
    (Hp : ¬ (Ubound.fin (f x y).left > s.1))
    (Ht : Ubound.fin (f x y).right < s.1)
    (h : minimize f t (n + 1) x y s = some res) :
    res.2.head? = some (tightenStep (f x y) s) := by
  simp only [minimize] at h
  rw [if_neg Hp] at h
  by_cases Hw : x.width ≤ t
  · rw [if_pos Hw] at h
    obtain rfl := (Option.some.inj h).symm
    rw [if_pos Ht]
    rfl
  · rw [if_neg Hw] at h
    simp only [split_box] at h
    rcases hA : minimize f t n ⟨x.left, x.mid⟩ ⟨y.left, y.mid⟩ (tightenStep (f x y) s) with _ | rA
    · rw [hA] at h; simp at h
    rw [hA] at h
    simp only [Option.some_bind] at h
    rcases hB : minimize f t n ⟨x.left, x.mid⟩ ⟨y.mid, y.right⟩ rA.1 with _ | rB
    · rw [hB] at h; simp at h
    rw [hB] at h
    simp only [Option.some_bind] at h
    rcases hC : minimize f t n ⟨x.mid, x.right⟩ ⟨y.left, y.mid⟩ rB.1 with _ | rC
    · rw [hC] at h; simp at h
    rw [hC] at h
    simp only [Option.some_bind] at h
    rcases hD : minimize f t n ⟨x.mid, x.right⟩ ⟨y.mid, y.right⟩ rC.1 with _ | rD
    · rw [hD] at h; simp at h
    rw [hD] at h
    simp only [Option.map_some'] at h
    obtain rfl := (Option.some.inj h).symm
    rw [if_pos Ht]
    rfl

/-- Claim C5: for every sequential Engine call whose enclosure left endpoint is
strictly above the current `min_ub`, the call returns immediately and leaves
both `min_ub` and the Candidate Set completely unchanged (and performs no
mutation at all: the mutation trace is empty). -/
theorem C5_prune_returns_unchanged (f : interval → interval → interval) (t : ℚ) (n : ℕ)
    (x y : interval) (s : EState) (Hp : Ubound.fin (f x y).left > s.1) :
    minimize f t (n + 1) x y s = some (s, []) := by
  simp only [minimize]
  rw [if_pos Hp]

/-- Witness for C5 at a concrete pruned call: `f = [7,8]` constantly, current
bound `5` with one stored candidate, which is returned untouched. -/
theorem C5_prune_witness :
    Ubound.fin (fConst78 iv01 iv01).left > (Ubound.fin 5 : Ubound) ∧
    minimize fConst78 1 1 iv01 iv01 (Ubound.fin 5, [⟨iv01, iv01, 1, 2⟩]) =
      some ((Ubound.fin 5, [⟨iv01, iv01, 1, 2⟩]), []) :=
  ⟨by norm_num [fConst78, interval.left],
   C5_prune_returns_unchanged fConst78 1 0 iv01 iv01 (Ubound.fin 5, [⟨iv01, iv01, 1, 2⟩])
     (by norm_num [fConst78, interval.left])⟩

/-- Counterexample to claim C4 as stated: a call whose box already has
`x.width ≤ threshold` but whose enclosure's left endpoint exceeds the current
upper bound is pruned first (line 30 precedes line 45), so it returns with the
Candidate Set unchanged — no Candidate is inserted, although the claimed
insertion would have changed the set. -/
theorem C4_stop_claim_counterexample :
    iv01.width ≤ (1 : ℚ) ∧
    minimize fConst1011 1 1 iv01 iv01 (Ubound.fin 5, []) = some ((Ubound.fin 5, []), []) ∧
    insertCand ⟨iv01, iv01, (fConst1011 iv01 iv01).left, (fConst1011 iv01 iv01).right⟩ [] ≠
      ([] : List minimizer) := by
  refine ⟨by norm_num [iv01, interval.width], ?_, by simp [insertCand]⟩
  norm_num [minimize, fConst1011, iv01, interval.left, interval.width]

/-- Claim C4 (amended): for every sequential Engine call that is NOT pruned
(`enclosure.left ≤ min_ub`) and whose box has `x.width ≤ threshold`, the Engine
inserts the Candidate `(x, y, enclosure.left, enclosure.right)` into the
(possibly just tightened) Candidate Set and returns without splitting or
recursing: the result is independent of the remaining fuel `n`, and the stop
test consults only the width of the x dimension — `y` is universally
quantified and unconstrained. -/
theorem C4_stop_inserts (f : interval → interval → interval) (t : ℚ) (n : ℕ)
    (x y : interval) (s : EState)
    (Hp : ¬ (Ubound.fin (f x y).left > s.1)) (Hw : x.width ≤ t) :
    minimize f t (n + 1) x y s =
      some (((tightenStep (f x y) s).1,
          insertCand ⟨x, y, (f x y).left, (f x y).right⟩ (tightenStep (f x y) s).2),
        (if Ubound.fin (f x y).right < s.1 then [tightenStep (f x y) s] else []) ++
          [((tightenStep (f x y) s).1,
            insertCand ⟨x, y, (f x y).left, (f x y).right⟩ (tightenStep (f x y) s).2)]) :=
  minimize_leaf f t n x y s Hp Hw

/-- Witness for the amended C4 at a concrete leaf call: `f = [1,2]`
constantly, initial bound +infinity; the candidate `(iv01, iv01, 1, 2)` is
inserted and the call returns. -/
theorem C4_stop_witness :
    ¬ (Ubound.fin (fConst12 iv01 iv01).left > (Ubound.inf : Ubound)) ∧
    iv01.width ≤ (1 : ℚ) ∧
    minimize fConst12 1 1 iv01 iv01 (Ubound.inf, []) =
      some ((Ubound.fin 2, [⟨iv01, iv01, 1, 2⟩]),
        [(Ubound.fin 2, []), (Ubound.fin 2, [⟨iv01, iv01, 1, 2⟩])]) :=
  ⟨by simp, by norm_num [iv01, interval.width],
   (C4_stop_inserts fConst12 1 0 iv01 iv01 (Ubound.inf, []) (by simp)
      (by norm_num [iv01, interval.width])).trans
     (by norm_num [tightenStep, evictFrom, insertCand, fConst12, iv01,
        interval.left, interval.right])⟩

/-- Claim C2: for every sequential Engine call that reaches the tighten step
with `enclosure.right < min_ub`, the step sets `min_ub` to `enclosure.right`
(the first entry of the call's mutation trace is exactly that state) and
removes from the Candidate Set exactly the entries with `flo ≥` the new bound:
in the ascending-by-`flo` order this is the contiguous suffix starting at the
first entry with `flo ≥` the new bound, and every entry with `flo <` the new
bound is retained. -/
theorem C2_tighten_suffix_eviction (f : interval → interval → interval) (t : ℚ) (n : ℕ)
    (x y : interval) (mu : Ubound) (ml : List minimizer) (res : EState × List EState)
    (Hs : ml.Pairwise (fun p q => p.flo ≤ q.flo))
    (Hp : ¬ (Ubound.fin (f x y).left > mu))
    (Ht : Ubound.fin (f x y).right < mu)
    (h : minimize f t (n + 1) x y (mu, ml) = some res) :
    res.2.head? = some (Ubound.fin (f x y).right, evictFrom (f x y).right ml) ∧
    evictFrom (f x y).right ml = ml.filter (fun m => decide (m.flo < (f x y).right)) ∧
    evictFrom (f x y).right ml ++ ml.dropWhile (fun m => decide (m.flo < (f x y).right)) = ml ∧
    ∀ m ∈ ml.dropWhile (fun m => decide (m.flo < (f x y).right)), (f x y).right ≤ m.flo := by
  refine ⟨?_, evictFrom_eq_filter Hs, by rw [evictFrom]; exact List.takeWhile_append_dropWhile _ _, dropWhile_ge Hs⟩
  have := minimize_trace_head f t n x y (mu, ml) res Hp Ht h
  rw [this, tightenStep, if_pos Ht]

/-- Witness for C2 at a concrete call: bound `5`, sorted candidate list with
`flo` values `0` and `3`; tightening to `2` keeps exactly the `flo = 0`
entry and drops the suffix starting at `flo = 3`. -/
theorem C2_tighten_witness :
    ([⟨iv01, iv01, 0, 0⟩, ⟨iv01, iv01, 3, 4⟩] : List minimizer).Pairwise
      (fun p q => p.flo ≤ q.flo) ∧
    ¬ (Ubound.fin (fConst12 iv01 iv01).left > (Ubound.fin 5 : Ubound)) ∧
    Ubound.fin (fConst12 iv01 iv01).right < (Ubound.fin 5 : Ubound) ∧
    minimize fConst12 1 1 iv01 iv01 (Ubound.fin 5, [⟨iv01, iv01, 0, 0⟩, ⟨iv01, iv01, 3, 4⟩]) =
      some ((Ubound.fin 2, [⟨iv01, iv01, 0, 0⟩, ⟨iv01, iv01, 1, 2⟩]),
        [(Ubound.fin 2, [⟨iv01, iv01, 0, 0⟩]),
         (Ubound.fin 2, [⟨iv01, iv01, 0, 0⟩, ⟨iv01, iv01, 1, 2⟩])]) ∧
    ([(Ubound.fin 2, [⟨iv01, iv01, 0, 0⟩]),
      (Ubound.fin 2, [⟨iv01, iv01, 0, 0⟩, ⟨iv01, iv01, 1, 2⟩])] :
        List EState).head? =
      some (Ubound.fin (fConst12 iv01 iv01).right,
        evictFrom (fConst12 iv01 iv01).right [⟨iv01, iv01, 0, 0⟩, ⟨iv01, iv01, 3, 4⟩]) := by
  refine ⟨?_, by simp [fConst12, interval.left], by norm_num [fConst12, interval.right], ?_, ?_⟩
  · simp [List.pairwise_cons]
  · norm_num [minimize, tightenStep, evictFrom, insertCand, fConst12, iv01,
      interval.left, interval.right, interval.width]
  · exact (C2_tighten_suffix_eviction fConst12 1 0 iv01 iv01 (Ubound.fin 5)
      [⟨iv01, iv01, 0, 0⟩, ⟨iv01, iv01, 3, 4⟩]
      ((Ubound.fin 2, [⟨iv01, iv01, 0, 0⟩, ⟨iv01, iv01, 1, 2⟩]),
        [(Ubound.fin 2, [⟨iv01, iv01, 0, 0⟩]),
         (Ubound.fin 2, [⟨iv01, iv01, 0, 0⟩, ⟨iv01, iv01, 1, 2⟩])])
      (by simp [List.pairwise_cons]) (by simp [fConst12, interval.left])
      (by norm_num [fConst12, interval.right])
      (by norm_num [minimize, tightenStep, evictFrom, insertCand, fConst12, iv01,
        interval.left, interval.right, interval.width])).1

/-- Counterexample to claim C3 as stated: with the constant objective `[0,0]`
over the unit box and threshold 1, the single Engine call tightens `min_ub`
to `0` and then inserts the candidate `(iv01, iv01, 0, 0)`; after this insert
mutation the stored candidate has `flo = 0 = min_ub`, so the STRICT invariant
`flo < min_ub` is violated. -/
theorem C3_strict_invariant_counterexample :
    minimize fZero 1 1 iv01 iv01 (Ubound.inf, []) =
      some ((Ubound.fin 0, [⟨iv01, iv01, 0, 0⟩]),
        [(Ubound.fin 0, []), (Ubound.fin 0, [⟨iv01, iv01, 0, 0⟩])]) ∧
    (⟨iv01, iv01, 0, 0⟩ : minimizer) ∈ [(⟨iv01, iv01, 0, 0⟩ : minimizer)] ∧
    ¬ (Ubound.fin (⟨iv01, iv01, 0, 0⟩ : minimizer).flo < Ubound.fin 0) := by
  refine ⟨?_, by simp, by simp⟩
  norm_num [minimize, tightenStep, evictFrom, insertCand, fZero, iv01,
    interval.left, interval.right, interval.width]

/-- Claim C3 (amended): provided the objective returns well-formed enclosures
(`left ≤ right`), after every mutation performed by a sequential Engine run
(every state in the mutation trace, and the final state) every stored
Candidate satisfies `flo ≤ min_ub` NON-strictly, for the `min_ub` value
current at that moment. -/
theorem C3_invariant_nonstrict (f : interval → interval → interval)
    (Hv : ∀ a b : interval, (f a b).left ≤ (f a b).right) (t : ℚ) (fuel : ℕ)
    (x y : interval) (s : EState) (res : EState × List EState)
    (h : minimize f t fuel x y s = some res) (hs : invLe s) :
    invLe res.1 ∧ ∀ u ∈ res.2, invLe u :=
  minimize_invLe f Hv t fuel x y s res h hs

/-- Witness for the amended C3 at a concrete run: `f = [5,5]` constantly; the
inserted candidate attains the bound (`flo = 5 = min_ub`), satisfying the
non-strict invariant in every post-mutation state. -/
theorem C3_invariant_witness :
    (∀ a b : interval, (fConst55 a b).left ≤ (fConst55 a b).right) ∧
    invLe (Ubound.inf, []) ∧
    minimize fConst55 1 1 iv01 iv01 (Ubound.inf, []) =
      some ((Ubound.fin 5, [⟨iv01, iv01, 5, 5⟩]),
        [(Ubound.fin 5, []), (Ubound.fin 5, [⟨iv01, iv01, 5, 5⟩])]) ∧
    (invLe ((Ubound.fin 5, [⟨iv01, iv01, 5, 5⟩]) : EState) ∧
      ∀ u ∈ [((Ubound.fin 5, []) : EState), (Ubound.fin 5, [⟨iv01, iv01, 5, 5⟩])], invLe u) :=
  ⟨fun a b => by norm_num [fConst55, interval.left, interval.right],
   fun c hc => absurd hc (List.not_mem_nil c),
   by norm_num [minimize, tightenStep, evictFrom, insertCand, fConst55, iv01,
     interval.left, interval.right, interval.width],
   C3_invariant_nonstrict fConst55
     (fun a b => by norm_num [fConst55, interval.left, interval.right]) 1 1 iv01 iv01
     (Ubound.inf, [])
     ((Ubound.fin 5, [⟨iv01, iv01, 5, 5⟩]),
       [(Ubound.fin 5, []), (Ubound.fin 5, [⟨iv01, iv01, 5, 5⟩])])
     (by norm_num [minimize, tightenStep, evictFrom, insertCand, fConst55, iv01,
       interval.left, interval.right, interval.width])
     (fun c hc => absurd hc (List.not_mem_nil c))⟩

/-- Claim C8: within one sequential Engine run, `min_ub` is monotonically
non-increasing over time: along the chronological sequence formed by the
initial state, the state after each mutation, and the final state, each
step's bound is at most the previous one's. -/
theorem C8_min_ub_nonincreasing (f : interval → interval → interval) (t : ℚ) (fuel : ℕ)
    (x y : interval) (s : EState) (res : EState × List EState)
    (h : minimize f t fuel x y s = some res) :
    List.Chain' (fun a b : EState => b.1 ≤ a.1) (s :: res.2 ++ [res.1]) := by
  obtain ⟨c, l⟩ := minimize_mono f t fuel x y s res h
  refine chain_glue c ?_
  rw [l]
  exact List.chain'_pair.mpr (Ubound.le_refl _)

/-- Witness for C8 at a concrete run that tightens the bound from `10` to `2`:
the chronological bound sequence `10, 2, 2, 2` is non-increasing. -/
theorem C8_monotone_witness :
    minimize fConst12 1 1 iv01 iv01 (Ubound.fin 10, [⟨iv01, iv01, 3, 4⟩]) =
      some ((Ubound.fin 2, [⟨iv01, iv01, 1, 2⟩]),
        [(Ubound.fin 2, []), (Ubound.fin 2, [⟨iv01, iv01, 1, 2⟩])]) ∧
    List.Chain' (fun a b : EState => b.1 ≤ a.1)
      ((Ubound.fin 10, [⟨iv01, iv01, 3, 4⟩]) ::
        [((Ubound.fin 2, []) : EState), (Ubound.fin 2, [⟨iv01, iv01, 1, 2⟩])] ++
        [((Ubound.fin 2, [⟨iv01, iv01, 1, 2⟩]) : EState)]) :=
  ⟨by norm_num [minimize, tightenStep, evictFrom, insertCand, fConst12, iv01,
     interval.left, interval.right, interval.width],
   C8_min_ub_nonincreasing fConst12 1 1 iv01 iv01 (Ubound.fin 10, [⟨iv01, iv01, 3, 4⟩])
     ((Ubound.fin 2, [⟨iv01, iv01, 1, 2⟩]),
       [(Ubound.fin 2, []), (Ubound.fin 2, [⟨iv01, iv01, 1, 2⟩])])
     (by norm_num [minimize, tightenStep, evictFrom, insertCand, fConst12, iv01,
       interval.left, interval.right, interval.width])⟩

/-- Claim C10: the prune test is strict, so a leaf call whose enclosure left
endpoint EQUALS the current `min_ub` is not pruned: it inserts the candidate
`(x, y, enclosure.left, enclosure.right)`, whose `flo` equals `min_ub`
exactly, the candidate is in the resulting set, and the whole resulting set
satisfies the NON-strict invariant `flo ≤ min_ub` — the invariant the code
actually maintains. -/
theorem C10_boundary_candidate_kept (f : interval → interval → interval) (t : ℚ) (n : ℕ)
    (x y : interval) (mu : ℚ) (ml : List minimizer)
    (Hlr : (f x y).left ≤ (f x y).right)
    (Heq : (f x y).left = mu)
    (Hw : x.width ≤ t)
    (Hinv : invLe (Ubound.fin mu, ml)) :
    minimize f t (n + 1) x y (Ubound.fin mu, ml) =
      some ((Ubound.fin mu, insertCand ⟨x, y, (f x y).left, (f x y).right⟩ ml),
        [(Ubound.fin mu, insertCand ⟨x, y, (f x y).left, (f x y).right⟩ ml)]) ∧
    (⟨x, y, (f x y).left, (f x y).right⟩ : minimizer) ∈
      insertCand ⟨x, y, (f x y).left, (f x y).right⟩ ml ∧
    Ubound.fin (⟨x, y, (f x y).left, (f x y).right⟩ : minimizer).flo = Ubound.fin mu ∧
    invLe (Ubound.fin mu, insertCand ⟨x, y, (f x y).left, (f x y).right⟩ ml) := by
  have Hp : ¬ (Ubound.fin (f x y).left > (Ubound.fin mu : Ubound)) := by
    rw [Heq]
    simp
  have Ht : ¬ (Ubound.fin (f x y).right < (Ubound.fin mu : Ubound)) := by
    simp only [Ubound.fin_lt_fin, not_lt]
    rw [← Heq]
    exact Hlr
  have hts : tightenStep (f x y) (Ubound.fin mu, ml) = (Ubound.fin mu, ml) := by
    rw [tightenStep, if_neg Ht]
  refine ⟨?_, mem_insertCand.mpr (Or.inl rfl), by rw [Heq], ?_⟩
  · have := minimize_leaf f t n x y (Ubound.fin mu, ml) Hp Hw
    rw [hts, if_neg Ht] at this
    simpa using this
  · intro c hc
    rcases mem_insertCand.mp hc with rfl | hc
    · show Ubound.fin (f x y).left ≤ Ubound.fin mu
      rw [Heq]
      simp
    · exact Hinv c hc

/-- Witness for C10 at a concrete boundary call: `f = [5,5]` constantly,
current bound exactly `5`, one stored candidate with `flo = 4`; the new
candidate with `flo = 5 = min_ub` is inserted and kept. -/
theorem C10_boundary_witness :
    (fConst55 iv01 iv01).left ≤ (fConst55 iv01 iv01).right ∧
    (fConst55 iv01 iv01).left = (5 : ℚ) ∧
    iv01.width ≤ (1 : ℚ) ∧
    invLe (Ubound.fin 5, [⟨iv01, iv01, 4, 6⟩]) ∧
    (minimize fConst55 1 1 iv01 iv01 (Ubound.fin 5, [⟨iv01, iv01, 4, 6⟩]) =
        some ((Ubound.fin 5,
            insertCand ⟨iv01, iv01, (fConst55 iv01 iv01).left, (fConst55 iv01 iv01).right⟩
              [⟨iv01, iv01, 4, 6⟩]),
          [(Ubound.fin 5,
            insertCand ⟨iv01, iv01, (fConst55 iv01 iv01).left, (fConst55 iv01 iv01).right⟩
              [⟨iv01, iv01, 4, 6⟩])]) ∧
      (⟨iv01, iv01, (fConst55 iv01 iv01).left, (fConst55 iv01 iv01).right⟩ : minimizer) ∈
        insertCand ⟨iv01, iv01, (fConst55 iv01 iv01).left, (fConst55 iv01 iv01).right⟩
          [⟨iv01, iv01, 4, 6⟩] ∧
      Ubound.fin
          (⟨iv01, iv01, (fConst55 iv01 iv01).left, (fConst55 iv01 iv01).right⟩ : minimizer).flo =
        Ubound.fin 5 ∧
      invLe (Ubound.fin 5,
        insertCand ⟨iv01, iv01, (fConst55 iv01 iv01).left, (fConst55 iv01 iv01).right⟩
          [⟨iv01, iv01, 4, 6⟩])) :=
  ⟨by norm_num [fConst55, interval.left, interval.right],
   by norm_num [fConst55, interval.left],
   by norm_num [iv01, interval.width],
   by intro c hc; simp only [List.mem_singleton] at hc; subst hc; norm_num,
   C10_boundary_candidate_kept fConst55 1 0 iv01 iv01 5 [⟨iv01, iv01, 4, 6⟩]
     (by norm_num [fConst55, interval.left, interval.right])
     (by norm_num [fConst55, interval.left])
     (by norm_num [iv01, interval.width])
     (by intro c hc; simp only [List.mem_singleton] at hc; subst hc; norm_num)⟩

/-- Claim C7: for every objective, box, state, and strictly positive
threshold, the sequential Engine terminates: fuel `minFuel x.width t + 1`
— recursion depth `minFuel x.width t`, the least `n` with
`x.width ≤ t * 2 ^ n`, i.e. `⌈log₂ (x.width / t)⌉` when `t < x.width` —
suffices for the run to complete. -/
theorem C7_terminates_within_depth_bound (f : interval → interval → interval) (t : ℚ)
    (x y : interval) (s : EState) (h : 0 < t) :
    (minimize f t (minFuel x.width t + 1) x y s).isSome := by
  apply minimize_total
  rw [minFuel, dif_pos h]
  exact Nat.find_spec (minFuel_exists x.width t h)

/-- Witness for C7 at a concrete run: box `[0,4] × [0,4]`, threshold `1`. -/
theorem C7_terminates_witness :
    (0 : ℚ) < 1 ∧
    (minimize fZero 1 (minFuel iv04.width 1 + 1) iv04 iv04 (Ubound.inf, [])).isSome :=
  ⟨by norm_num,
   C7_terminates_within_depth_bound fZero 1 iv04 iv04 (Ubound.inf, []) (by norm_num)⟩

/-- Claim C6: for every input box `(x, y)` with valid intervals, `split_box`
returns exactly the quadrants `xl = [x.lo, x.mid]`, `xr = [x.mid, x.hi]`,
`yl = [y.lo, y.mid]`, `yr = [y.mid, y.hi]`; the union of the four quadrant
boxes equals the input box as a point set, and the interiors of the four
quadrants `(xl,yl), (xl,yr), (xr,yl), (xr,yr)` are pairwise disjoint.
(The function is a pure Lean function of its arguments, hence deterministic
and side-effect-free by construction.) -/
theorem C6_split_box_partitions (x y : interval) (hx : x.lo ≤ x.hi) (hy : y.lo ≤ y.hi) :
    split_box x y = (⟨x.left, x.mid⟩, ⟨x.mid, x.right⟩, ⟨y.left, y.mid⟩, ⟨y.mid, y.right⟩) ∧
    boxSet x y =
      boxSet ⟨x.left, x.mid⟩ ⟨y.left, y.mid⟩ ∪ boxSet ⟨x.left, x.mid⟩ ⟨y.mid, y.right⟩ ∪
      boxSet ⟨x.mid, x.right⟩ ⟨y.left, y.mid⟩ ∪ boxSet ⟨x.mid, x.right⟩ ⟨y.mid, y.right⟩ ∧
    List.Pairwise (fun b1 b2 : interval × interval =>
        boxInterior b1.1 b1.2 ∩ boxInterior b2.1 b2.2 = ∅)
      [(⟨x.left, x.mid⟩, ⟨y.left, y.mid⟩), (⟨x.left, x.mid⟩, ⟨y.mid, y.right⟩),
       (⟨x.mid, x.right⟩, ⟨y.left, y.mid⟩), (⟨x.mid, x.right⟩, ⟨y.mid, y.right⟩)] :=
  ⟨rfl, boxSet_split x y hx hy, boxInterior_split_disjoint x y⟩

/-- Witness for C6 at the unit box. -/
theorem C6_split_box_witness :
    iv01.lo ≤ iv01.hi ∧
    (split_box iv01 iv01 =
        (⟨iv01.left, iv01.mid⟩, ⟨iv01.mid, iv01.right⟩, ⟨iv01.left, iv01.mid⟩,
          ⟨iv01.mid, iv01.right⟩) ∧
      boxSet iv01 iv01 =
        boxSet ⟨iv01.left, iv01.mid⟩ ⟨iv01.left, iv01.mid⟩ ∪
        boxSet ⟨iv01.left, iv01.mid⟩ ⟨iv01.mid, iv01.right⟩ ∪
        boxSet ⟨iv01.mid, iv01.right⟩ ⟨iv01.left, iv01.mid⟩ ∪
        boxSet ⟨iv01.mid, iv01.right⟩ ⟨iv01.mid, iv01.right⟩ ∧
      List.Pairwise (fun b1 b2 : interval × interval =>
          boxInterior b1.1 b1.2 ∩ boxInterior b2.1 b2.2 = ∅)
        [(⟨iv01.left, iv01.mid⟩, ⟨iv01.left, iv01.mid⟩),
         (⟨iv01.left, iv01.mid⟩, ⟨iv01.mid, iv01.right⟩),
         (⟨iv01.mid, iv01.right⟩, ⟨iv01.left, iv01.mid⟩),
         (⟨iv01.mid, iv01.right⟩, ⟨iv01.mid, iv01.right⟩)]) :=
  ⟨by norm_num [iv01], C6_split_box_partitions iv01 iv01 (by norm_num [iv01]) (by norm_num [iv01])⟩

/-- Claim C1 fails on the code (code bug): in the distributed run, ranks 1-3
receive data but never invoke the Engine — the comment block at
src/optimization-mpi.cpp:174-176 stands where the call would be — so each
reports the untouched initial state `(+infinity, empty)`; the claimed
behaviour (running the sequential Engine on the rank's own quadrant of the
first split from `+infinity` and an empty Candidate Set) would instead
produce a finite bound and a nonempty Candidate Set, as evaluated here for
rank 1 on the objective `-(x+y)` over `[0,4] × [0,4]` with threshold 2. -/
theorem C1_workers_never_search :
    workerReported fNegSum 2 2 iv04 iv04 1 = some (Ubound.inf, []) ∧
    workerReported fNegSum 2 2 iv04 iv04 2 = some (Ubound.inf, []) ∧
    workerReported fNegSum 2 2 iv04 iv04 3 = some (Ubound.inf, []) ∧
    minimize fNegSum 2 2 (carre iv04 iv04 1).1 (carre iv04 iv04 1).2 (Ubound.inf, []) =
      some ((Ubound.fin (-2), [⟨⟨0, 2⟩, ⟨2, 4⟩, -6, -2⟩]),
        [(Ubound.fin (-2), []), (Ubound.fin (-2), [⟨⟨0, 2⟩, ⟨2, 4⟩, -6, -2⟩])]) ∧
    some ((Ubound.inf : Ubound), ([] : List minimizer)) ≠
      some ((Ubound.fin (-2), [(⟨⟨0, 2⟩, ⟨2, 4⟩, -6, -2⟩ : minimizer)])) := by
  refine ⟨by simp [workerReported], by simp [workerReported], by simp [workerReported], ?_, by simp⟩
  norm_num [minimize, carre, split_box, tightenStep, evictFrom, insertCand, fNegSum, iv04,
    interval.left, interval.right, interval.mid, interval.width]

/-- Claim C9 fails on the code (code bug): with the objective `-(x+y)` over
`[0,4] × [0,4]` and threshold 2, the minimum-reduction over the four workers'
local bounds yields `0` (rank 0 searched only within its own quadrant and
ranks 1-3 contribute their untouched `+infinity`), while a single sequential
run over the whole box yields `-4`; `0 ≤ -4` is false, so the distributed
run reports a strictly WORSE bound than the sequential run. -/
theorem C9_distributed_bound_worse :
    reducedBound fNegSum 2 2 iv04 iv04 = some (Ubound.fin 0) ∧
    (minimize fNegSum 2 2 iv04 iv04 (Ubound.inf, [])).map (fun p => p.1.1) =
      some (Ubound.fin (-4)) ∧
    ¬ ((Ubound.fin 0 : Ubound) ≤ Ubound.fin (-4)) := by
  refine ⟨?_, ?_, by norm_num⟩
  · norm_num [reducedBound, workerReported, minimize_mpi, carre, minimize, tightenStep,
      evictFrom, insertCand, split_box, fNegSum, iv04, interval.left, interval.right,
      interval.mid, interval.width, Ubound.minB]
  · norm_num [minimize, tightenStep, evictFrom, insertCand, split_box, fNegSum, iv04,
      interval.left, interval.right, interval.mid, interval.width]
